import Mathlib

/-!
Verification development for the frontmatter-automation plugin
(src/main.ts).  The TypeScript core is shallowly embedded: JS strings
(UTF-16, BMP only in all relevant inputs) are modelled as `List Char`
with `String` wrappers at the interface; regex-driven passes are
modelled as explicit character scans that reproduce the engine's
left-to-right, leftmost-match semantics.  External collaborators
(the YAML serializer, JS `Date` parsing, file timestamps, the model
call) are passed in as explicit values, as the spec's concurrency
section demands.
-/

/-! ## Character classes (mirroring the regexes of src/main.ts) -/

/-- Chars matched by the regex class `[ _/\-]` (separator set of
`cleanupBare` / `formatAiTag` / `toPascalCaseEnglish`). -/
def isSepChar (c : Char) : Bool :=
  c.toNat = 32 || c.toNat = 95 || c.toNat = 47 || c.toNat = 45

/-- Chars matched by `[ _/]` (separators replaced by hyphens in the
hyphen-style branch of `cleanupBare`). -/
def isSep3 (c : Char) : Bool :=
  c.toNat = 32 || c.toNat = 95 || c.toNat = 47

/-- Hangul syllable block `[가-힯]` used by the Korean test. -/
def isHangul (c : Char) : Bool :=
  0xAC00 ≤ c.toNat && c.toNat ≤ 0xD7AF

/-- ASCII `[A-Z]`. -/
def isUpperCh (c : Char) : Bool := 65 ≤ c.toNat && c.toNat ≤ 90

/-- ASCII `[a-z]`. -/
def isLowerCh (c : Char) : Bool := 97 ≤ c.toNat && c.toNat ≤ 122

/-- ASCII `[A-Za-z]`. -/
def isAsciiLetter (c : Char) : Bool := isUpperCh c || isLowerCh c

/-- ASCII `[0-9]`. -/
def isDigitCh (c : Char) : Bool := 48 ≤ c.toNat && c.toNat ≤ 57

/-- The character class `[A-Za-z0-9 _/\-]` of the "English" test in
`cleanupBare` and `formatAiTag`. -/
def engChar (c : Char) : Bool := isAsciiLetter c || isDigitCh c || isSepChar c

/-- JS whitespace class `\s` (also the set trimmed by `String.trim`):
space, tab, line terminators, NBSP, the Unicode space separators and
the BOM. -/
def isJsWs (c : Char) : Bool :=
  c.toNat = 32 || c.toNat = 9 || c.toNat = 10 || c.toNat = 13 ||
  c.toNat = 11 || c.toNat = 12 || c.toNat = 0xA0 || c.toNat = 0x1680 ||
  (0x2000 ≤ c.toNat && c.toNat ≤ 0x200A) || c.toNat = 0x2028 ||
  c.toNat = 0x2029 || c.toNat = 0x202F || c.toNat = 0x205F ||
  c.toNat = 0x3000 || c.toNat = 0xFEFF

/-- Zero-width characters `[​-‍﻿]` removed by
`cleanupAfterTagRemoval`. -/
def isZeroWidth (c : Char) : Bool :=
  (0x200B ≤ c.toNat && c.toNat ≤ 0x200D) || c.toNat = 0xFEFF

/-- JS `String.toUpperCase` restricted to the ASCII range (the only
cased characters the English tag branch can see). -/
def jsToUpper (c : Char) : Char :=
  if isLowerCh c then Char.ofNat (c.toNat - 32) else c

/-- JS `String.toLowerCase` restricted to the ASCII range (Hangul and
the hyphen-style outputs are uncased; the simple-case mapping of other
scripts is not reached by any claim). -/
def jsToLower (c : Char) : Char :=
  if isUpperCh c then Char.ofNat (c.toNat + 32) else c

/-! ## Generic list/string helpers -/

/-- Prefix test (used to model `String.startsWith` and substring
search). -/
def begWith : List Char → List Char → Bool
  | [], _ => true
  | _ :: _, [] => false
  | p :: ps, c :: cs => p = c && begWith ps cs

/-- Index of the first occurrence of the pattern, i.e. JS
`String.indexOf` (for a nonempty pattern). -/
def findSub (pat : List Char) : List Char → Option Nat
  | [] => none
  | c :: cs => if begWith pat (c :: cs) then some 0 else (findSub pat cs).map (· + 1)

/-- Left trim of JS whitespace. -/
def jsTrimL (cs : List Char) : List Char := cs.dropWhile isJsWs

/-- Right trim of JS whitespace (JS `String.trimEnd`). -/
def jsTrimR (cs : List Char) : List Char := (cs.reverse.dropWhile isJsWs).reverse

/-- JS `String.trim`. -/
def jsTrim (cs : List Char) : List Char := jsTrimL (jsTrimR cs)

/-- The `replace(/^#/, '')` step: strip one leading marker. -/
def stripHash : List Char → List Char
  | '#' :: cs => cs
  | cs => cs

/-- Order-preserving exact-duplicate removal, i.e. the JS idiom
`Array.from(new Set(arr))` (primitives compare by value). The first
argument accumulates the values already emitted. -/
def dedupGo {α : Type} [DecidableEq α] (seen : List α) : List α → List α
  | [] => []
  | x :: xs => if x ∈ seen then dedupGo seen xs else x :: dedupGo (x :: seen) xs

/-- JS `Array.from(new Set(arr))` / `uniqArray` of src/main.ts. -/
def uniqArray {α : Type} [DecidableEq α] (xs : List α) : List α := dedupGo [] xs

/-! ## Tag Normalizer (cleanupBare, tagKey, formatAiTag) -/

/-- One pass of `replace(/[ _/]+/g, '-')`: each maximal run of
space/underscore/slash becomes a single hyphen.  The boolean records
whether the previous char was in the run. -/
def sepRunsGo (prevSep : Bool) : List Char → List Char
  | [] => []
  | c :: cs =>
    if isSep3 c then
      if prevSep then sepRunsGo true cs else '-' :: sepRunsGo true cs
    else c :: sepRunsGo false cs

/-- The pass replacing each run of two or more hyphens by a single
hyphen.  The boolean records whether the previous char was a hyphen. -/
def collapseHyGo (prevHy : Bool) : List Char → List Char
  | [] => []
  | c :: cs =>
    if c = '-' then
      if prevHy then collapseHyGo true cs else '-' :: collapseHyGo true cs
    else c :: collapseHyGo false cs

/-- The `replace(/^-+|-+$/g, '')` pass: trim hyphens at both ends. -/
def trimHyphens (cs : List Char) : List Char :=
  ((cs.dropWhile (· = '-')).reverse.dropWhile (· = '-')).reverse

/-- The hyphen-style branch of `cleanupBare` (and of `formatAiTag`)
for tags classified neither Korean nor English. -/
def hyphenStyle (cs : List Char) : List Char :=
  trimHyphens (collapseHyGo false (sepRunsGo false cs))

/-- The Korean test `/[가-힯]/.test(base)`. -/
def isKoreanChars (cs : List Char) : Bool := cs.any isHangul

/-- The English test
`/^[A-Za-z0-9 _/\-]+$/.test(base) && /[A-Za-z]/.test(base)`. -/
def isEnglishChars (cs : List Char) : Bool :=
  !cs.isEmpty && cs.all engChar && cs.any isAsciiLetter

/-- src/main.ts `cleanupBare`: trim, strip one leading marker; for
Korean/English remove every separator (case preserved), otherwise
hyphen style. -/
def cleanupBareL (s : List Char) : List Char :=
  let base := stripHash (jsTrim s)
  if isKoreanChars base || isEnglishChars base then
    base.filter (fun c => !(isSepChar c))
  else hyphenStyle base

/-- src/main.ts `formatExistingTag` (alias of `cleanupBare`),
on `List Char`. -/
def formatExistingTagL (s : List Char) : List Char := cleanupBareL s

/-- src/main.ts `tagKey`: `cleanupBare(s).toLowerCase()`. -/
def tagKeyL (s : List Char) : List Char := (cleanupBareL s).map jsToLower

/-- The splitter `base.split(/[ _/\-]+/).filter(Boolean)`:
separator runs delimit tokens, empty fragments dropped.  The
accumulator holds the current token reversed. -/
def splitSepsGo (cur : List Char) : List Char → List (List Char)
  | [] => if cur.isEmpty then [] else [cur.reverse]
  | c :: cs =>
    if isSepChar c then
      if cur.isEmpty then splitSepsGo [] cs else cur.reverse :: splitSepsGo [] cs
    else splitSepsGo (c :: cur) cs

/-- `base.split(/[ _/\-]+/).filter(Boolean)` of `toPascalCaseEnglish`. -/
def splitSeps (cs : List Char) : List (List Char) := splitSepsGo [] cs

/-- The regex `/[A-Z].*[a-z]/`: an uppercase letter somewhere before a
lowercase one. -/
def hasUpperThenLower : List Char → Bool
  | [] => false
  | c :: cs => (isUpperCh c && cs.any isLowerCh) || hasUpperThenLower cs

/-- The regex `/[a-z].*[A-Z]/`. -/
def hasLowerThenUpper : List Char → Bool
  | [] => false
  | c :: cs => (isLowerCh c && cs.any isUpperCh) || hasLowerThenUpper cs

/-- The mixed-case test `/[A-Z].*[a-z]|[a-z].*[A-Z]/` of
`toPascalCaseEnglish`. -/
def hasMixedCase (tok : List Char) : Bool :=
  hasUpperThenLower tok || hasLowerThenUpper tok

/-- The acronym test `/^[A-Z0-9]+$/` of `toPascalCaseEnglish`. -/
def isAcronym (tok : List Char) : Bool :=
  !tok.isEmpty && tok.all (fun c => isUpperCh c || isDigitCh c)

/-- The digit-leading test `/^\d/`. -/
def startsDigit : List Char → Bool
  | c :: _ => isDigitCh c
  | [] => false

/-- Per-token transformation of `toPascalCaseEnglish`: acronyms and
digit-leading tokens are preserved, mixed-case tokens get only their
first char uppercased, all other tokens get first char uppercased and
the rest lowercased. -/
def pascalTok (tok : List Char) : List Char :=
  if isAcronym tok then tok
  else if startsDigit tok then tok
  else
    match tok with
    | [] => []
    | c :: cs =>
      if hasMixedCase (c :: cs) then jsToUpper c :: cs
      else jsToUpper c :: cs.map jsToLower

/-- src/main.ts `toPascalCaseEnglish`. -/
def toPascalCaseEnglishL (base : List Char) : List Char :=
  let sp := splitSeps base
  let toks := if sp.isEmpty then [base] else sp
  (toks.map pascalTok).flatten

/-- src/main.ts `formatAiTag`: trim and strip one marker; Korean tags
are concatenated, English tags PascalCased, others hyphen-styled. -/
def formatAiTagL (s : List Char) : List Char :=
  let base := stripHash (jsTrim s)
  if isKoreanChars base then base.filter (fun c => !(isSepChar c))
  else if isEnglishChars base then toPascalCaseEnglishL base
  else hyphenStyle base

/-- String-level `formatExistingTag`. -/
def formatExistingTag (s : String) : String := String.mk (formatExistingTagL s.toList)

/-- String-level `formatAiTag`. -/
def formatAiTag (s : String) : String := String.mk (formatAiTagL s.toList)

/-- String-level `tagKey` (the case-insensitive dedup key). -/
def tagKey (s : String) : String := String.mk (tagKeyL s.toList)

/-! ## Inline Tag Extractor (extractInlineTagsAndStrip, cleanupAfterTagRemoval) -/

/-- Token-body class of TAG_REGEX: ASCII letters and digits,
underscore, hyphen, slash, and Hangul syllables. -/
def isTagChar (c : Char) : Bool :=
  isAsciiLetter c || isDigitCh c || c.toNat = 95 || c.toNat = 45 ||
  c.toNat = 47 || isHangul c

/-- A char satisfying the "contains at least one letter or Hangul"
lookahead of TAG_REGEX. -/
def isLetterHangul (c : Char) : Bool := isAsciiLetter c || isHangul c

/-- Left-boundary test of TAG_REGEX: start of text, or the previous
character is whitespace or one of the openers. -/
def boundaryOk : Option Char → Bool
  | none => true
  | some c => isJsWs c || c = '(' || c = '[' || c = '{' || c = ':'

/-- Right-boundary class of TAG_REGEX: end of text or a whitespace /
punctuation closer. -/
def isCloser (c : Char) : Bool :=
  isJsWs c || c = ',' || c = '.' || c = ';' || c = ':' || c = '!' ||
  c = '?' || c = ')' || c = '}' || c = ']'

/-- Right-boundary test on the remaining input. -/
def closerOk : List Char → Bool
  | [] => true
  | c :: _ => isCloser c

/-- The global-replace scan of TAG_REGEX over the original text.  At a
marker char whose left boundary holds, the maximal run of token chars
is matched when it is nonempty, contains a letter or Hangul char, and
is followed by a closer or the end; the matched span is dropped from
the output (the zero-width boundary keeps the preceding char) and the
scan resumes after it, remembering the last original char for the next
lookbehind.  Fuel (at least the input length) makes the recursion
structural. -/
def scanGo : Nat → Option Char → List Char → List (List Char) × List Char
  | 0, _, rest => ([], rest)
  | _ + 1, _, [] => ([], [])
  | fuel + 1, prev, c :: rest =>
    if c = '#' && boundaryOk prev then
      let run := rest.takeWhile isTagChar
      let rest2 := rest.dropWhile isTagChar
      if !run.isEmpty && run.any isLetterHangul && closerOk rest2 then
        let r := scanGo fuel run.getLast? rest2
        (run :: r.1, r.2)
      else
        let r := scanGo fuel (some '#') rest
        (r.1, '#' :: r.2)
    else
      let r := scanGo fuel (some c) rest
      (r.1, c :: r.2)

/-- The TAG_REGEX replace pass: collected raw token bodies (in match
order) and the text with matches removed. -/
def scanStrip (cs : List Char) : List (List Char) × List Char :=
  scanGo cs.length none cs

/-- Split a text into its lines (separators at every newline, like the
line structure seen by a multiline-anchored regex). -/
def splitNl : List Char → List (List Char)
  | [] => [[]]
  | c :: cs =>
    if c = '\n' then [] :: splitNl cs
    else
      match splitNl cs with
      | [] => [[c]]
      | l :: ls => (c :: l) :: ls

/-- The per-line trailing space/tab removal `[ \t]+` before each line
end. -/
def rstripLines (cs : List Char) : List Char :=
  List.intercalate ['\n']
    ((splitNl cs).map (fun l => (l.reverse.dropWhile (fun c => c = ' ' || c = '\t')).reverse))

/-- The pass collapsing each run of three or more newlines to exactly
two (blank-line squeezing).  The counter is the number of consecutive
newlines already seen. -/
def collNlGo : Nat → List Char → List Char
  | _, [] => []
  | k, c :: cs =>
    if c = '\n' then
      if 2 ≤ k then collNlGo (k + 1) cs else '\n' :: collNlGo (k + 1) cs
    else c :: collNlGo 0 cs

/-- src/main.ts `cleanupAfterTagRemoval`: zero-width chars removed,
line-trailing blanks removed, long blank runs collapsed, trailing
whitespace stripped. -/
def cleanupAfterTagRemovalL (cs : List Char) : List Char :=
  let s1 := cs.filter (fun c => !(isZeroWidth c))
  let s2 := rstripLines s1
  let s3 := collNlGo 0 s2
  (s3.reverse.dropWhile isJsWs).reverse

/-- src/main.ts `extractInlineTagsAndStrip`: scan and strip the inline
tags, normalize each with `formatExistingTag`, keep the nonempty ones
in match order, drop exact duplicates (JS `Set`, case preserved), and
clean the stripped body. -/
def extractInlineTagsAndStrip (s : String) : List String × String :=
  let p := scanStrip s.toList
  let found := (p.1.map formatExistingTagL).filter (fun t => !t.isEmpty)
  ((uniqArray found).map String.mk, String.mk (cleanupAfterTagRemovalL p.2))

/-! ## Tag Merge Engine (the chosen-map loop of updateFrontmatterForFile) -/

/-- One step of the chosen-map loop: format the incoming tag, compute
its dedup key, and record it only when the key is nonempty and not yet
present (`if (k && !chosen.has(k)) chosen.set(k, raw)`). -/
def addTagFold (fmt : String → String) (acc : List (String × String)) (t : String) :
    List (String × String) :=
  let raw := fmt t
  let k := tagKey raw
  if k = "" then acc
  else if k ∈ acc.map Prod.fst then acc
  else acc ++ [(k, raw)]

/-- The merge step of `updateFrontmatterForFile`: inline tags first
(`addKeepCase`), then existing frontmatter tags (`addKeepCase`), then
the generated tags flattened across languages in mapping order and
with empty entries dropped (`Object.values(tagsByLang).flat()
.filter(Boolean)`, `addAi`); the result is the recorded canonical
forms in insertion order. -/
def mergeTags (inline existing : List String)
    (generated : List (String × List String)) : List String :=
  let aiFlat := ((generated.map Prod.snd).flatten).filter (fun t => t ≠ "")
  let c1 := inline.foldl (addTagFold formatExistingTag) []
  let c2 := existing.foldl (addTagFold formatExistingTag) c1
  let c3 := aiFlat.foldl (addTagFold formatAiTag) c2
  c3.map Prod.snd

/-- Modelled from the spec (§4.4), for the refinement claim about the
merge: "For each tag in precedence order, compute its dedup key; if
the key is not yet present, record it with its canonical form; if
already present, discard the new occurrence (first-seen canonical form
and relative order always wins)."  The argument `seen` is the set of
keys already recorded. -/
def mergeFirstSeen (seen : List String) : List String → List String
  | [] => []
  | c :: cs =>
    let k := tagKey c
    if k = "" then mergeFirstSeen seen cs
    else if k ∈ seen then mergeFirstSeen seen cs
    else c :: mergeFirstSeen (k :: seen) cs

/-! ## Document Splitter / Composer -/

/-- The closing-fence pattern searched by `raw.indexOf('\n---', 3)`. -/
def nlFence : List Char := ['\n', '-', '-', '-']

/-- The body cleanup `replace(/^\s*\n/, '')`: the longest whitespace
prefix ending in a newline is removed (greedy `\s*` with
backtracking), i.e. everything up to and including the last newline of
the leading whitespace run. -/
def lastNlIdx : List Char → Option Nat
  | [] => none
  | c :: cs =>
    match lastNlIdx cs with
    | some k => some (k + 1)
    | none => if c = '\n' then some 0 else none

/-- Drop the leading-blank-line prefix matched by the regex above. -/
def stripLeadWsNl (cs : List Char) : List Char :=
  match lastNlIdx (cs.takeWhile isJsWs) with
  | some k => cs.drop (k + 1)
  | none => cs

/-- src/main.ts `splitFrontmatter`, at the level of the metadata TEXT
between the fences (the subsequent `safeLoadYaml` parse is the
external serializer, applied by the caller): if the document starts
with the fence and a `\n---` occurs from index 3 on, the slice between
them is trimmed and returned with the cleaned body; otherwise the
whole document is body. -/
def splitFrontmatterL (raw : List Char) : Option (List Char) × List Char :=
  if begWith ['-', '-', '-'] raw then
    match findSub nlFence (raw.drop 3) with
    | some i =>
      let e := i + 3
      (some (jsTrim ((raw.drop 3).take (e + 1 - 3))), stripLeadWsNl (raw.drop (e + 4)))
    | none => (none, raw)
  else (none, raw)

/-- src/main.ts `composeWithFrontmatter`, with the serialized mapping
text (`YAML.dump(fm)`) passed in by the caller: trim its end, wrap it
in fences, and append a blank line and the body. -/
def composeWithFrontmatterL (yamlText body : List Char) : List Char :=
  ('-' :: '-' :: '-' :: '\n' :: []) ++ jsTrimR yamlText ++
    ('\n' :: '-' :: '-' :: '-' :: '\n' :: '\n' :: []) ++ body

/-- String-level splitter. -/
def splitFrontmatter (raw : String) : Option String × String :=
  let p := splitFrontmatterL raw.toList
  (p.1.map String.mk, String.mk p.2)

/-- String-level composer. -/
def composeWithFrontmatter (yamlText body : String) : String :=
  String.mk (composeWithFrontmatterL yamlText.toList body.toList)

/-! ## Metadata values and the Reconciler
(mergeFrontmatter and the frontmatter tail of updateFrontmatterForFile) -/

/-- A frontmatter value: string, array, number, null, boolean, or an
arbitrary other value (object and the like, identified by a reference
id), opaque to the core. -/
inductive FmVal where
  | vstr : String → FmVal
  | varr : List FmVal → FmVal
  | vnum : Int → FmVal
  | vnull : FmVal
  | vbool : Bool → FmVal
  | vother : Nat → FmVal

/-- A metadata mapping: insertion-ordered fields, as a JS object. -/
abbrev Fm : Type := List (String × FmVal)

/-- JS `Set` element equality (SameValueZero): primitives compare by
value; arrays and objects compare by reference, so two separately
constructed array values are never equal (`vother` carries its
reference id, array literals here always denote fresh references). -/
def sameValueZero : FmVal → FmVal → Bool
  | .vstr a, .vstr b => a == b
  | .vnum a, .vnum b => a == b
  | .vbool a, .vbool b => a == b
  | .vnull, .vnull => true
  | .vother a, .vother b => a == b
  | _, _ => false

/-- Order-preserving dedup with an explicit equality test (JS `Set`
over possibly non-primitive values). -/
def dedupByGo {α : Type} (eqb : α → α → Bool) (seen : List α) : List α → List α
  | [] => []
  | x :: xs =>
    if seen.any (eqb x) then dedupByGo eqb seen xs
    else x :: dedupByGo eqb (x :: seen) xs

/-- `uniqArray` over frontmatter values. -/
def uniqVals (xs : List FmVal) : List FmVal := dedupByGo sameValueZero [] xs

/-- Property read `m[k]` (first occurrence; JS object keys are
unique). -/
def getKey : Fm → String → Option FmVal
  | [], _ => none
  | p :: ps, k => if p.1 = k then some p.2 else getKey ps k

/-- The `'k' in m` test. -/
def hasKey (m : Fm) (k : String) : Bool := (getKey m k).isSome

/-- Property write `m[k] = v`: overwrite in place when the key exists,
append otherwise (JS object insertion-order semantics). -/
def setKey : Fm → String → FmVal → Fm
  | [], k, v => [(k, v)]
  | p :: ps, k, v => if p.1 = k then (k, v) :: ps else p :: setKey ps k v

/-- The `delete m[k]` operation. -/
def delKey (m : Fm) (k : String) : Fm := m.filter (fun p => p.1 ≠ k)

/-- JS truthiness of a frontmatter value (arrays and objects are
always truthy). -/
def truthy : FmVal → Bool
  | .vstr s => s ≠ ""
  | .varr _ => true
  | .vnum n => n ≠ 0
  | .vnull => false
  | .vbool b => b
  | .vother _ => true

/-- Truthiness of a possibly-absent property (absent reads as
`undefined`, which is falsy). -/
def truthyOpt : Option FmVal → Bool
  | none => false
  | some v => truthy v

/-- src/main.ts `asArray` on a value. -/
def asArrayV : FmVal → List FmVal
  | .varr xs => xs
  | .vnull => []
  | v => [v]

/-- src/main.ts `asArray` on a possibly-absent property
(`asArray(undefined) = []`). -/
def asArrayOpt : Option FmVal → List FmVal
  | none => []
  | some v => asArrayV v

/-- The nullish coalescing `x ?? d` on a possibly-absent value. -/
def coalesce (v : Option FmVal) (d : FmVal) : FmVal :=
  match v with
  | none => d
  | some .vnull => d
  | some x => x

mutual

/-- JS `String(v)` coercion together with the element coercion of
`Array.prototype.join` (null elements join as empty; non-plain values
are abstracted to the constant object string). -/
def jsToString : FmVal → String
  | .vstr s => s
  | .vnum n => toString n
  | .vbool b => if b then "true" else "false"
  | .vnull => "null"
  | .varr xs => String.intercalate "," (jsToStringArr xs)
  | .vother _ => "[object Object]"

/-- Element images under `Array.prototype.join`. -/
def jsToStringArr : List FmVal → List String
  | [] => []
  | .vnull :: vs => "" :: jsToStringArr vs
  | v :: vs => jsToString v :: jsToStringArr vs

end

/-- The `String(t ?? '')` coercion applied to each tag entry. -/
def jsToStringN : FmVal → String
  | .vnull => ""
  | v => jsToString v

/-- The tag-entry cleanup `replace(/\s+/g, '-')` (whitespace runs to a
single hyphen). -/
def wsRunsGo (prevWs : Bool) : List Char → List Char
  | [] => []
  | c :: cs =>
    if isJsWs c then
      if prevWs then wsRunsGo true cs else '-' :: wsRunsGo true cs
    else c :: wsRunsGo false cs

/-- String-level whitespace-run replacement. -/
def wsRunsToHyphen (s : String) : String := String.mk (wsRunsGo false s.toList)

/-- String-level trim. -/
def jsTrimStr (s : String) : String := String.mk (jsTrim s.toList)

/-- String-level single leading-marker strip. -/
def stripHashStr (s : String) : String := String.mk (stripHash s.toList)

/-- src/main.ts `mergeFrontmatter`: copy the old mapping, overwrite
each generated field (merging arrays for `tags`), then clean the
`tags` entry when truthy: coerce entries to trimmed strings, drop the
empty ones, strip markers, hyphenate whitespace, and de-duplicate. -/
def mergeFrontmatter (oldFM : Option Fm) (genFM : Fm) : Fm :=
  let out0 := oldFM.getD []
  let out := genFM.foldl (fun acc kv =>
    if kv.1 = "tags" then
      setKey acc "tags"
        (FmVal.varr (uniqVals (asArrayOpt (getKey acc "tags") ++ asArrayV kv.2)))
    else setKey acc kv.1 kv.2) out0
  if truthyOpt (getKey out "tags") then
    setKey out "tags" (FmVal.varr
      ((uniqArray
        ((((asArrayOpt (getKey out "tags")).map (fun t => jsTrimStr (jsToStringN t))).filter
            (fun t => t ≠ "")).map (fun t => wsRunsToHyphen (stripHashStr t)))).map
        FmVal.vstr))
  else out

/-- A calendar date in the machine's local time zone, as extracted
from a JS `Date` by `getFullYear`, `getMonth() + 1` and `getDate`.
Timestamps and `Date` objects enter the core only through this
projection, so they are injected in this form. -/
structure LocalDate where
  year : Nat
  month : Nat
  day : Nat
  deriving DecidableEq, Repr

/-- Zero-pad to two digits (`String(n).padStart(2, '0')`). -/
def pad2 (n : Nat) : String := if n < 10 then "0" ++ toString n else toString n

/-- src/main.ts `formatYYYYMMDDLocal`. -/
def formatYYYYMMDDLocal (d : LocalDate) : String :=
  toString d.year ++ "-" ++ pad2 d.month ++ "-" ++ pad2 d.day

/-- Lines 120-135 of src/main.ts: build the generated fields with the
`obj.title ?? ''` / `obj.summary ?? ''` defaults, merge them over the
old mapping, overwrite `tags` with the merged tag list (as an array of
strings), and delete the forbidden fields. -/
def reconcileBase (old : Option Fm) (objTitle objSummary : Option FmVal)
    (finalTags : List String) : Fm :=
  delKey (delKey (delKey
    (setKey
      (mergeFrontmatter old
        [("title", coalesce objTitle (FmVal.vstr "")),
         ("summary", coalesce objSummary (FmVal.vstr ""))])
      "tags" (FmVal.varr (finalTags.map FmVal.vstr)))
    "updated") "last_modified") "path"

/-- The `created` step (lines 137-145 of src/main.ts) on the mapping
obtained so far. -/
def reconcileCreated (m3 : Fm) (ctime mtime : Option LocalDate) (now : LocalDate)
    (parseD : String → Option LocalDate) : Fm :=
  if !hasKey m3 "created" || !truthyOpt (getKey m3 "created") then
    setKey m3 "created" (FmVal.vstr (formatYYYYMMDDLocal (ctime.getD (mtime.getD now))))
  else
    match getKey m3 "created" with
    | some (FmVal.vstr s) =>
      match parseD s with
      | some d => setKey m3 "created" (FmVal.vstr (formatYYYYMMDDLocal d))
      | none => m3
    | _ => m3

/-- The frontmatter tail of `updateFrontmatterForFile` (the spec's
Metadata Reconciler, lines 120-148 of src/main.ts): merge the
generated fields over the old mapping, overwrite `tags`, strip the
forbidden fields, fill or normalize `created` (file creation date,
else modification date, else now; an existing truthy string is
reformatted when JS `Date` parsing succeeds and left alone otherwise;
`parseD` injects that parse as the local calendar day; non-string
truthy values are left unchanged, as in the source), and stamp
`fm_created` with today. -/
def reconcile (old : Option Fm) (objTitle objSummary : Option FmVal)
    (finalTags : List String) (ctime mtime : Option LocalDate) (now : LocalDate)
    (parseD : String → Option LocalDate) : Fm :=
  setKey
    (reconcileCreated (reconcileBase old objTitle objSummary finalTags)
      ctime mtime now parseD)
    "fm_created" (FmVal.vstr (formatYYYYMMDDLocal now))

/-! ## Lemmas about the merge engine -/

/-- The chosen-map step on an already-formatted canonical form. -/
def addCanon (acc : List (String × String)) (c : String) : List (String × String) :=
  let k := tagKey c
  if k = "" then acc
  else if k ∈ acc.map Prod.fst then acc
  else acc ++ [(k, c)]

theorem addTagFold_eq_addCanon (fmt : String → String) (acc : List (String × String))
    (t : String) : addTagFold fmt acc t = addCanon acc (fmt t) := rfl

theorem mergeFirstSeen_congr (cs : List String) :
    ∀ s t : List String, (∀ a, a ∈ s ↔ a ∈ t) →
      mergeFirstSeen s cs = mergeFirstSeen t cs := by
  induction cs with
  | nil => intro s t _; rfl
  | cons c cs ih =>
    intro s t h
    simp only [mergeFirstSeen]
    by_cases hk : tagKey c = ""
    · simp only [hk, if_pos rfl]
      exact ih s t h
    · simp only [if_neg hk]
      by_cases hs : tagKey c ∈ s
      · rw [if_pos hs, if_pos ((h _).mp hs)]
        exact ih s t h
      · rw [if_neg hs, if_neg (fun ht => hs ((h _).mpr ht))]
        rw [ih (tagKey c :: s) (tagKey c :: t) (by intro a; simp [h a])]

theorem foldl_addCanon (cs : List String) :
    ∀ acc : List (String × String),
      (cs.foldl addCanon acc).map Prod.snd
        = acc.map Prod.snd ++ mergeFirstSeen (acc.map Prod.fst) cs := by
  induction cs with
  | nil => intro acc; simp [mergeFirstSeen]
  | cons c cs ih =>
    intro acc
    simp only [List.foldl_cons, mergeFirstSeen, addCanon]
    by_cases hk : tagKey c = ""
    · simp only [hk, if_pos rfl]
      exact ih acc
    · simp only [if_neg hk]
      by_cases hmem : tagKey c ∈ acc.map Prod.fst
      · rw [if_pos hmem, if_pos hmem]
        exact ih acc
      · rw [if_neg hmem, if_neg hmem, ih (acc ++ [(tagKey c, c)])]
        have hseen : mergeFirstSeen ((acc ++ [(tagKey c, c)]).map Prod.fst) cs
            = mergeFirstSeen (tagKey c :: acc.map Prod.fst) cs := by
          apply mergeFirstSeen_congr
          intro a
          simp [or_comm]
        rw [hseen]
        simp

/-- The canonical stream processed by the merge step, in precedence
order and with the per-source normalization applied. -/
def canonStream (inline existing : List String)
    (generated : List (String × List String)) : List String :=
  inline.map formatExistingTag ++ existing.map formatExistingTag ++
    ((((generated.map Prod.snd).flatten).filter (fun t => t ≠ "")).map formatAiTag)

theorem mergeTags_eq_firstSeen (inline existing : List String)
    (generated : List (String × List String)) :
    mergeTags inline existing generated
      = mergeFirstSeen [] (canonStream inline existing generated) := by
  have h1 : ∀ (fmt : String → String) (init : List (String × String)) (xs : List String),
      xs.foldl (addTagFold fmt) init = (xs.map fmt).foldl addCanon init := by
    intro fmt init xs
    rw [List.foldl_map]
    rfl
  show (((((generated.map Prod.snd).flatten).filter (fun t => t ≠ "")).foldl
      (addTagFold formatAiTag)
      (existing.foldl (addTagFold formatExistingTag)
        (inline.foldl (addTagFold formatExistingTag) []))).map Prod.snd)
    = mergeFirstSeen [] (canonStream inline existing generated)
  rw [h1, h1, h1, ← List.foldl_append, ← List.foldl_append]
  have := foldl_addCanon
    (inline.map formatExistingTag ++ existing.map formatExistingTag ++
      ((((generated.map Prod.snd).flatten).filter (fun t => t ≠ "")).map formatAiTag)) []
  unfold canonStream
  simpa using this

theorem mergeFirstSeen_first_occ (cs : List String) :
    ∀ (seen : List String) (c : String), c ∈ mergeFirstSeen seen cs →
      tagKey c ≠ "" ∧ tagKey c ∉ seen ∧
        cs.find? (fun d => tagKey d == tagKey c) = some c := by
  induction cs with
  | nil => intro seen c h; simp [mergeFirstSeen] at h
  | cons d cs ih =>
    intro seen c h
    simp only [mergeFirstSeen] at h
    by_cases hk : tagKey d = ""
    · rw [if_pos hk] at h
      obtain ⟨hne, hns, hfind⟩ := ih seen c h
      refine ⟨hne, hns, ?_⟩
      rw [List.find?_cons_of_neg, hfind]
      simp [hk]
      exact fun he => hne he.symm
    · rw [if_neg hk] at h
      by_cases hs : tagKey d ∈ seen
      · rw [if_pos hs] at h
        obtain ⟨hne, hns, hfind⟩ := ih seen c h
        refine ⟨hne, hns, ?_⟩
        rw [List.find?_cons_of_neg, hfind]
        simp
        intro he
        exact hns (he ▸ hs)
      · rw [if_neg hs] at h
        rcases List.mem_cons.mp h with hcd | hrec
        · subst hcd
          refine ⟨hk, hs, ?_⟩
          rw [List.find?_cons_of_pos]
          simp
        · obtain ⟨hne, hns, hfind⟩ := ih (tagKey d :: seen) c hrec
          have hdc : tagKey d ≠ tagKey c := fun he => hns (by rw [← he]; exact List.mem_cons_self _ _)
          refine ⟨hne, fun hin => hns (List.mem_cons_of_mem _ hin), ?_⟩
          rw [List.find?_cons_of_neg, hfind]
          simp [hdc]

theorem mergeFirstSeen_pairwise (cs : List String) :
    ∀ seen : List String,
      List.Pairwise (fun a b => tagKey a ≠ tagKey b) (mergeFirstSeen seen cs) := by
  induction cs with
  | nil => intro seen; simp [mergeFirstSeen]
  | cons c cs ih =>
    intro seen
    simp only [mergeFirstSeen]
    by_cases hk : tagKey c = ""
    · rw [if_pos hk]; exact ih seen
    · rw [if_neg hk]
      by_cases hs : tagKey c ∈ seen
      · rw [if_pos hs]; exact ih seen
      · rw [if_neg hs]
        refine List.Pairwise.cons ?_ (ih (tagKey c :: seen))
        intro b hb
        obtain ⟨_, hns, _⟩ := mergeFirstSeen_first_occ cs (tagKey c :: seen) b hb
        exact fun he => hns (by rw [← he]; exact List.mem_cons_self _ _)

theorem tagKey_empty : tagKey "" = "" := rfl

/-- Claim C1: the merge step processes the three sources in precedence
order (inline, then existing, then generated, each under its source's
normalization); whenever two tags share a dedup key, the canonical
form seen first in that order is kept and later occurrences are
discarded, and the result lists the kept canonical forms in first-seen
order.  Stated as: the merge equals the spec's first-seen recursion
over the precedence-ordered canonical stream, and every kept form is
the first occurrence of its dedup key in that stream. -/
theorem claim_C1_merge_precedence (inline existing : List String)
    (generated : List (String × List String)) :
    mergeTags inline existing generated
      = mergeFirstSeen [] (canonStream inline existing generated)
    ∧ ∀ c ∈ mergeTags inline existing generated,
        (canonStream inline existing generated).find?
          (fun d => tagKey d == tagKey c) = some c := by
  refine ⟨mergeTags_eq_firstSeen inline existing generated, ?_⟩
  intro c hc
  rw [mergeTags_eq_firstSeen] at hc
  exact (mergeFirstSeen_first_occ _ [] c hc).2.2

/-- Claim C10: for every combination of inputs, the merged tag list
contains no empty entry, and no two entries share a dedup key. -/
theorem claim_C10_merge_wellformed (inline existing : List String)
    (generated : List (String × List String)) :
    (∀ t ∈ mergeTags inline existing generated, t ≠ "")
    ∧ List.Pairwise (fun a b => tagKey a ≠ tagKey b)
        (mergeTags inline existing generated) := by
  rw [mergeTags_eq_firstSeen]
  refine ⟨?_, mergeFirstSeen_pairwise _ []⟩
  intro t ht hemp
  obtain ⟨hne, _, _⟩ := mergeFirstSeen_first_occ _ [] t ht
  exact hne (by rw [hemp]; exact tagKey_empty)

/-- Claim C4 as stated is false: the existing tag "history-notes" does
not survive in that literal form — the conservative rule removes its
hyphen, so the merge result is not the claimed list. -/
theorem claim_C4_counterexample :
    mergeTags ["History"] ["history-notes"] [("en", ["History"])]
      ≠ ["History", "history-notes"] := by decide

/-- Claim C4, amended: the inline canonical form "History" wins over
the generated variant with the same dedup key, and the existing tag
survives as a distinct entry, but in its separator-stripped canonical
form "historynotes". -/
theorem claim_C4_amended :
    mergeTags ["History"] ["history-notes"] [("en", ["History"])]
      = ["History", "historynotes"] := by decide

/-! ## Lemmas about the extractor -/

theorem dedupGo_spec {α : Type} [DecidableEq α] (xs : List α) :
    ∀ seen : List α,
      (dedupGo seen xs).Nodup ∧ ∀ y ∈ dedupGo seen xs, y ∉ seen ∧ y ∈ xs := by
  induction xs with
  | nil => intro seen; simp [dedupGo]
  | cons x xs ih =>
    intro seen
    simp only [dedupGo]
    by_cases hx : x ∈ seen
    · rw [if_pos hx]
      obtain ⟨hnd, hmem⟩ := ih seen
      exact ⟨hnd, fun y hy => ⟨(hmem y hy).1, List.mem_cons_of_mem _ (hmem y hy).2⟩⟩
    · rw [if_neg hx]
      obtain ⟨hnd, hmem⟩ := ih (x :: seen)
      refine ⟨List.Pairwise.cons ?_ hnd, ?_⟩
      · intro y hy he
        exact (hmem y hy).1 (he ▸ List.mem_cons_self _ _)
      · intro y hy
        rcases List.mem_cons.mp hy with hyx | hyr
        · exact ⟨hyx ▸ hx, hyx ▸ List.mem_cons_self _ _⟩
        · exact ⟨fun hs => (hmem y hyr).1 (List.mem_cons_of_mem _ hs),
            List.mem_cons_of_mem _ (hmem y hyr).2⟩

theorem stringMk_injective : Function.Injective String.mk := by
  intro a b h
  simpa using congrArg String.data h

/-- Claim C5 as stated is false: the extractor de-duplicates by exact
canonical string, not by the case-insensitive dedup key, so the body
containing a capitalized and a lowercase variant of the same key
yields two entries sharing one dedup key. -/
theorem claim_C5_counterexample :
    ¬ List.Pairwise (fun a b => tagKey a ≠ tagKey b)
        (extractInlineTagsAndStrip "#History #history").1 := by
  intro h
  have he : (extractInlineTagsAndStrip "#History #history").1
      = ["History", "history"] := by decide
  rw [he] at h
  have hrel := List.rel_of_pairwise_cons h (List.mem_cons_self _ _)
  exact hrel (by decide)

theorem dedupGo_sublist {α : Type} [DecidableEq α] (xs : List α) :
    ∀ seen : List α, (dedupGo seen xs).Sublist xs := by
  induction xs with
  | nil => intro seen; simp [dedupGo]
  | cons x xs ih =>
    intro seen
    simp only [dedupGo]
    by_cases hx : x ∈ seen
    · rw [if_pos hx]
      exact (ih seen).cons x
    · rw [if_neg hx]
      exact (ih (x :: seen)).cons₂ x

theorem dedupGo_complete {α : Type} [DecidableEq α] (xs : List α) :
    ∀ (seen : List α) (y : α), y ∈ xs → y ∉ seen → y ∈ dedupGo seen xs := by
  induction xs with
  | nil => intro seen y hy; simp at hy
  | cons x xs ih =>
    intro seen y hy hns
    simp only [dedupGo]
    by_cases hx : x ∈ seen
    · rw [if_pos hx]
      rcases List.mem_cons.mp hy with rfl | hy2
      · exact absurd hx hns
      · exact ih seen y hy2 hns
    · rw [if_neg hx]
      rcases List.mem_cons.mp hy with rfl | hy2
      · exact List.mem_cons_self _ _
      · by_cases hyx : y = x
        · exact hyx ▸ List.mem_cons_self _ _
        · exact List.mem_cons_of_mem _
            (ih (x :: seen) y hy2 (by simp [hyx, hns]))

/-- Claim C5, amended: the inline tag list is de-duplicated by exact
canonical form (case-sensitive): it is a duplicate-free subsequence of
the normalized matched tokens (so first-seen order and original case
are kept) containing every distinct canonical form, and every entry is
nonempty; two entries may still share a dedup key when they differ
only in case (that collapse happens later, in the merge step). -/
theorem claim_C5_amended (body : String) :
    (extractInlineTagsAndStrip body).1.Nodup
    ∧ (∀ t ∈ (extractInlineTagsAndStrip body).1, t ≠ "")
    ∧ (extractInlineTagsAndStrip body).1.Sublist
        ((((scanStrip body.toList).1.map formatExistingTagL).filter
          (fun t => !t.isEmpty)).map String.mk)
    ∧ ∀ t ∈ ((scanStrip body.toList).1.map formatExistingTagL).filter
        (fun t => !t.isEmpty), String.mk t ∈ (extractInlineTagsAndStrip body).1 := by
  unfold extractInlineTagsAndStrip
  simp only []
  refine ⟨((dedupGo_spec _ []).1).map stringMk_injective, ?_, ?_, ?_⟩
  · intro t ht hemp
    obtain ⟨l, hl, hlt⟩ := List.mem_map.mp ht
    have hin := ((dedupGo_spec _ []).2 l hl).2
    have hne := (List.mem_filter.mp hin).2
    have : l = [] := by
      have := congrArg String.data hlt
      simpa [hemp] using this
    simp [this] at hne
  · exact (dedupGo_sublist _ []).map String.mk
  · intro t ht
    exact List.mem_map_of_mem _ (dedupGo_complete _ [] t ht (by simp))

/-- Claim C3 as stated is false: the extractor removes only the marker
and token body, so the space that followed each removed token stays in
the body and the stripped body is not the claimed "analysis". -/
theorem claim_C3_counterexample :
    extractInlineTagsAndStrip "#history #world analysis"
      ≠ (["history", "world"], "analysis") := by decide

/-- Claim C3, amended: for the body "#history #world analysis" the
extractor returns the tags ["history", "world"], and the stripped body
is "  analysis" — the markers and token bodies are removed but the
space after each removed token remains (the cleanup pass strips only
line-trailing and end-of-text whitespace). -/
theorem claim_C3_amended :
    extractInlineTagsAndStrip "#history #world analysis"
      = (["history", "world"], "  analysis") := by decide

/-! ## Lemmas about the expressive (PascalCase) rule -/

theorem toNat_ofNat_small {n : Nat} (h : n < 0xD800) : (Char.ofNat n).toNat = n := by
  have hv : Nat.isValidChar n := Or.inl h
  simp only [Char.ofNat, dif_pos hv, Char.ofNatAux, Char.toNat]
  simp [UInt32.toNat, BitVec.toNat_ofNat]

theorem isUpperCh_jsToUpper {c : Char} (h : isAsciiLetter c = true) :
    isUpperCh (jsToUpper c) = true := by
  unfold jsToUpper
  by_cases hl : isLowerCh c = true
  · rw [if_pos hl]
    have hl2 : 97 ≤ c.toNat ∧ c.toNat ≤ 122 := by simpa [isLowerCh] using hl
    have hv : (Char.ofNat (c.toNat - 32)).toNat = c.toNat - 32 :=
      toNat_ofNat_small (by omega)
    simp only [isUpperCh, hv]
    simp
    omega
  · rw [if_neg hl]
    have h2 : isUpperCh c = true ∨ isLowerCh c = true := by
      simpa [isAsciiLetter] using h
    rcases h2 with h2 | h2
    · exact h2
    · exact absurd h2 hl

theorem jsToUpper_not_sep {c : Char} (h : isSepChar c = false) :
    isSepChar (jsToUpper c) = false := by
  unfold jsToUpper
  by_cases hl : isLowerCh c = true
  · rw [if_pos hl]
    have hl2 : 97 ≤ c.toNat ∧ c.toNat ≤ 122 := by simpa [isLowerCh] using hl
    have hv : (Char.ofNat (c.toNat - 32)).toNat = c.toNat - 32 :=
      toNat_ofNat_small (by omega)
    simp only [isSepChar, hv]
    simp
    omega
  · rw [if_neg hl]; exact h

theorem jsToLower_not_sep {c : Char} (h : isSepChar c = false) :
    isSepChar (jsToLower c) = false := by
  unfold jsToLower
  by_cases hu : isUpperCh c = true
  · rw [if_pos hu]
    have hu2 : 65 ≤ c.toNat ∧ c.toNat ≤ 90 := by simpa [isUpperCh] using hu
    have hv : (Char.ofNat (c.toNat + 32)).toNat = c.toNat + 32 :=
      toNat_ofNat_small (by omega)
    simp only [isSepChar, hv]
    simp
    omega
  · rw [if_neg hu]; exact h

theorem splitSepsGo_tokens (cs : List Char) :
    ∀ (cur : List Char), (∀ a ∈ cur, isSepChar a = false) →
      ∀ t ∈ splitSepsGo cur cs,
        t ≠ [] ∧ ∀ a ∈ t, isSepChar a = false ∧ (a ∈ cur ∨ a ∈ cs) := by
  induction cs with
  | nil =>
    intro cur hcur t ht
    simp only [splitSepsGo] at ht
    by_cases hc : cur.isEmpty
    · simp [hc] at ht
    · rw [if_neg hc] at ht
      rcases List.mem_singleton.mp ht with rfl
      refine ⟨by simpa [List.isEmpty_iff] using hc, ?_⟩
      intro a ha
      rw [List.mem_reverse] at ha
      exact ⟨hcur a ha, Or.inl ha⟩
  | cons c cs ih =>
    intro cur hcur t ht
    simp only [splitSepsGo] at ht
    by_cases hsep : isSepChar c = true
    · rw [if_pos hsep] at ht
      by_cases hc : cur.isEmpty
      · rw [if_pos hc] at ht
        obtain ⟨hne, hall⟩ := ih [] (by simp) t ht
        exact ⟨hne, fun a ha => ⟨(hall a ha).1,
          Or.inr (List.mem_cons_of_mem _ ((hall a ha).2.resolve_left (by simp)))⟩⟩
      · rw [if_neg hc] at ht
        rcases List.mem_cons.mp ht with rfl | hrec
        · refine ⟨by simpa [List.isEmpty_iff] using hc, ?_⟩
          intro a ha
          rw [List.mem_reverse] at ha
          exact ⟨hcur a ha, Or.inl ha⟩
        · obtain ⟨hne, hall⟩ := ih [] (by simp) t hrec
          exact ⟨hne, fun a ha => ⟨(hall a ha).1,
            Or.inr (List.mem_cons_of_mem _ ((hall a ha).2.resolve_left (by simp)))⟩⟩
    · rw [if_neg hsep] at ht
      have hcur2 : ∀ a ∈ c :: cur, isSepChar a = false := by
        intro a ha
        rcases List.mem_cons.mp ha with rfl | ha
        · simpa using hsep
        · exact hcur a ha
      obtain ⟨hne, hall⟩ := ih (c :: cur) hcur2 t ht
      refine ⟨hne, fun a ha => ⟨(hall a ha).1, ?_⟩⟩
      rcases (hall a ha).2 with hin | hin
      · rcases List.mem_cons.mp hin with rfl | hin
        · exact Or.inr (List.mem_cons_self _ _)
        · exact Or.inl hin
      · exact Or.inr (List.mem_cons_of_mem _ hin)

theorem pascalTok_head (t : List Char) (hne : t ≠ [])
    (hall : ∀ a ∈ t, engChar a = true ∧ isSepChar a = false)
    (hac : isAcronym t = false) (hd : startsDigit t = false) :
    ∃ c cs, pascalTok t = c :: cs ∧ isUpperCh c = true := by
  obtain ⟨c, cs, rfl⟩ := List.exists_cons_of_ne_nil hne
  unfold pascalTok
  rw [hac, hd]
  simp only [Bool.false_eq_true, if_false]
  have hc := hall c (List.mem_cons_self _ _)
  have hcd : isDigitCh c = false := by simpa [startsDigit] using hd
  have hlet : isAsciiLetter c = true := by
    have := hc.1
    unfold engChar at this
    simp [hc.2, hcd] at this
    simpa using this
  by_cases hm : hasMixedCase (c :: cs) = true
  · rw [if_pos hm]
    exact ⟨jsToUpper c, cs, rfl, isUpperCh_jsToUpper hlet⟩
  · rw [if_neg hm]
    exact ⟨jsToUpper c, cs.map jsToLower, rfl, isUpperCh_jsToUpper hlet⟩

theorem pascalTok_no_sep (t : List Char)
    (hall : ∀ a ∈ t, isSepChar a = false) :
    ∀ a ∈ pascalTok t, isSepChar a = false := by
  rcases t with _ | ⟨c, cs⟩
  · intro a ha
    simp [pascalTok, isAcronym, startsDigit] at ha
  · unfold pascalTok
    by_cases hac : isAcronym (c :: cs) = true
    · rw [if_pos hac]; exact hall
    · rw [if_neg hac]
      by_cases hd : startsDigit (c :: cs) = true
      · rw [if_pos hd]; exact hall
      · rw [if_neg hd]
        show ∀ a ∈ (if hasMixedCase (c :: cs) = true then jsToUpper c :: cs
          else jsToUpper c :: cs.map jsToLower), isSepChar a = false
        have hc := hall c (List.mem_cons_self _ _)
        by_cases hm : hasMixedCase (c :: cs) = true
        · rw [if_pos hm]
          intro a ha
          rcases List.mem_cons.mp ha with rfl | ha
          · exact jsToUpper_not_sep hc
          · exact hall a (List.mem_cons_of_mem _ ha)
        · rw [if_neg hm]
          intro a ha
          rcases List.mem_cons.mp ha with rfl | ha
          · exact jsToUpper_not_sep hc
          · obtain ⟨b, hb, rfl⟩ := List.mem_map.mp ha
            exact jsToLower_not_sep (hall b (List.mem_cons_of_mem _ hb))

/-- Claim C8: under the expressive (generated-source) rule, for every
latin-classified input of multiple separator-delimited words, none an
acronym or digit-leading, the output is the concatenation of the
per-word transforms, each word's first letter is uppercase, and no
separator character remains; in particular the generated tag
"civil rights" becomes "CivilRights" and the Korean input
"세계 역사" becomes "세계역사". -/
theorem claim_C8_pascalcase (s : String)
    (hk : isKoreanChars (stripHash (jsTrim s.toList)) = false)
    (he : isEnglishChars (stripHash (jsTrim s.toList)) = true)
    (hlen : 2 ≤ (splitSeps (stripHash (jsTrim s.toList))).length)
    (hac : ∀ t ∈ splitSeps (stripHash (jsTrim s.toList)), isAcronym t = false)
    (hdg : ∀ t ∈ splitSeps (stripHash (jsTrim s.toList)), startsDigit t = false) :
    formatAiTag s
      = String.mk (((splitSeps (stripHash (jsTrim s.toList))).map pascalTok).flatten)
    ∧ (∀ t ∈ splitSeps (stripHash (jsTrim s.toList)),
        ∃ c cs, pascalTok t = c :: cs ∧ isUpperCh c = true)
    ∧ (∀ c ∈ (formatAiTag s).toList, isSepChar c = false)
    ∧ formatAiTag "civil rights" = "CivilRights"
    ∧ formatAiTag "세계 역사" = "세계역사" := by
  have hne : (splitSeps (stripHash (jsTrim s.toList))).isEmpty = false := by
    cases hsp : splitSeps (stripHash (jsTrim s.toList)) with
    | nil => rw [hsp] at hlen; simp at hlen
    | cons a l => simp
  have h1 : formatAiTagL s.toList
      = toPascalCaseEnglishL (stripHash (jsTrim s.toList)) := by
    show (if isKoreanChars (stripHash (jsTrim s.toList)) = true
        then (stripHash (jsTrim s.toList)).filter (fun c => !(isSepChar c))
        else if isEnglishChars (stripHash (jsTrim s.toList)) = true
          then toPascalCaseEnglishL (stripHash (jsTrim s.toList))
          else hyphenStyle (stripHash (jsTrim s.toList)))
      = toPascalCaseEnglishL (stripHash (jsTrim s.toList))
    rw [hk, he]
    simp
  have h2 : toPascalCaseEnglishL (stripHash (jsTrim s.toList))
      = ((splitSeps (stripHash (jsTrim s.toList))).map pascalTok).flatten := by
    show ((List.map pascalTok (if (splitSeps (stripHash (jsTrim s.toList))).isEmpty = true
        then [stripHash (jsTrim s.toList)]
        else splitSeps (stripHash (jsTrim s.toList)))).flatten)
      = ((splitSeps (stripHash (jsTrim s.toList))).map pascalTok).flatten
    rw [hne]
    simp
  have hall : ∀ a ∈ stripHash (jsTrim s.toList), engChar a = true := by
    have := he
    unfold isEnglishChars at this
    simp only [Bool.and_eq_true] at this
    exact fun a ha => List.all_eq_true.mp this.1.2 a ha
  have htok : ∀ t ∈ splitSeps (stripHash (jsTrim s.toList)),
      t ≠ [] ∧ ∀ a ∈ t, engChar a = true ∧ isSepChar a = false := by
    intro t ht
    obtain ⟨hne2, hfacts⟩ :=
      splitSepsGo_tokens (stripHash (jsTrim s.toList)) [] (by simp) t ht
    refine ⟨hne2, fun a ha => ?_⟩
    obtain ⟨hsep, hmem⟩ := hfacts a ha
    have hbase : a ∈ stripHash (jsTrim s.toList) := hmem.resolve_left (by simp)
    exact ⟨hall a hbase, hsep⟩
  have hmain : formatAiTag s
      = String.mk (((splitSeps (stripHash (jsTrim s.toList))).map pascalTok).flatten) := by
    unfold formatAiTag
    rw [h1, h2]
  refine ⟨hmain, ?_, ?_, by decide, by decide⟩
  · intro t ht
    obtain ⟨hne2, hfacts⟩ := htok t ht
    exact pascalTok_head t hne2 hfacts (hac t ht) (hdg t ht)
  · intro c hc
    rw [hmain] at hc
    have hc2 : c ∈ ((splitSeps (stripHash (jsTrim s.toList))).map pascalTok).flatten := hc
    obtain ⟨l, hl, hcl⟩ := List.mem_flatten.mp hc2
    obtain ⟨t, ht, rfl⟩ := List.mem_map.mp hl
    exact pascalTok_no_sep t (fun a ha => ((htok t ht).2 a ha).2) c hcl

/-- Witness for claim C8, applying it to the generated tag
"civil rights". -/
theorem claim_C8_witness :
    (2 ≤ (splitSeps (stripHash (jsTrim ("civil rights" : String).toList))).length)
    ∧ formatAiTag "civil rights" = "CivilRights"
    ∧ formatAiTag "세계 역사" = "세계역사" := by
  refine ⟨by decide, ?_, ?_⟩
  · exact (claim_C8_pascalcase "civil rights" (by decide) (by decide) (by decide)
      (by decide) (by decide)).2.2.2.1
  · exact (claim_C8_pascalcase "civil rights" (by decide) (by decide) (by decide)
      (by decide) (by decide)).2.2.2.2

/-! ## Lemmas about the splitter/composer -/

theorem dropWhile_self_head {p : Char → Bool} {h : Char} {t : List Char}
    (hd : List.dropWhile p (h :: t) = h :: t) : p h = false := by
  by_cases hp : p h = true
  · rw [List.dropWhile_cons_of_pos hp] at hd
    have hle := (List.dropWhile_sublist (l := t) p).length_le
    rw [hd] at hle
    simp at hle
  · simpa using hp

theorem findSub_fence (rest : List Char) :
    ∀ xs : List Char, findSub nlFence xs = none →
      findSub nlFence (xs ++ ('\n' :: '-' :: '-' :: '-' :: rest)) = some xs.length := by
  intro xs
  induction xs with
  | nil =>
    intro _
    simp [findSub, begWith, nlFence]
  | cons c xs ih =>
    intro h
    have hb : begWith nlFence (c :: xs) = false := by
      by_cases hbb : begWith nlFence (c :: xs) = true
      · rw [findSub, if_pos hbb] at h; cases h
      · simpa using hbb
    have hrec : findSub nlFence xs = none := by
      rw [findSub, hb] at h
      simp only [Bool.false_eq_true, if_false, Option.map_eq_none'] at h
      exact h
    have hb2 : begWith nlFence
        (c :: (xs ++ ('\n' :: '-' :: '-' :: '-' :: rest))) = false := by
      rcases xs with _ | ⟨a, _ | ⟨d, _ | ⟨e, t⟩⟩⟩
      · simp [nlFence, begWith]
      · simp [nlFence, begWith]
      · simp [nlFence, begWith]
      · simpa [nlFence, begWith] using hb
    rw [List.cons_append, findSub, hb2]
    simp only [Bool.false_eq_true, if_false, ih hrec, Option.map_some']
    simp

theorem jsTrimR_snoc_ws (w : List Char) (c : Char) (hc : isJsWs c = true) :
    jsTrimR (w ++ [c]) = jsTrimR w := by
  unfold jsTrimR
  have h1 : (w ++ [c]).reverse = c :: w.reverse := by simp
  rw [h1, List.dropWhile_cons_of_pos hc]

theorem jsTrimR_keep_cons (c : Char) (y : List Char) (hR : jsTrimR y = y)
    (hne : y ≠ []) : jsTrimR (c :: y) = c :: y := by
  obtain ⟨r, rs, hy⟩ : ∃ r rs, y.reverse = r :: rs := by
    rcases hyr : y.reverse with _ | ⟨r, rs⟩
    · exact absurd (by simpa using congrArg List.reverse hyr) hne
    · exact ⟨r, rs, rfl⟩
  have hdw : List.dropWhile isJsWs y.reverse = y.reverse := by
    have := congrArg List.reverse hR
    simpa [jsTrimR] using this
  have hrhead : isJsWs r = false := dropWhile_self_head (hy ▸ hdw)
  unfold jsTrimR
  have h1 : (c :: y).reverse = y.reverse ++ [c] := by simp
  rw [h1, hy, List.cons_append, List.dropWhile_cons_of_neg (by simp [hrhead]),
    ← List.cons_append, ← hy]
  simp

theorem jsTrim_wrap (y : List Char) (hL : jsTrimL y = y) (hR : jsTrimR y = y) :
    jsTrim ('\n' :: (y ++ ['\n'])) = y := by
  by_cases hne : y = []
  · subst hne
    decide
  · have h2 : '\n' :: (y ++ ['\n']) = ('\n' :: y) ++ ['\n'] := by simp
    rw [jsTrim, h2, jsTrimR_snoc_ws _ _ (by decide),
      jsTrimR_keep_cons '\n' y hR hne]
    unfold jsTrimL
    rw [List.dropWhile_cons_of_pos (by decide)]
    exact hL

theorem lastNlIdx_none (r : List Char) (h : '\n' ∉ r) : lastNlIdx r = none := by
  induction r with
  | nil => rfl
  | cons c cs ih =>
    have hc : c ≠ '\n' := fun he => h (he ▸ List.mem_cons_self _ _)
    have hcs : '\n' ∉ cs := fun hin => h (List.mem_cons_of_mem _ hin)
    rw [lastNlIdx, ih hcs]
    simp [hc]

theorem stripLeadWsNl_two (b : List Char) (hb : '\n' ∉ b.takeWhile isJsWs) :
    stripLeadWsNl ('\n' :: '\n' :: b) = b := by
  unfold stripLeadWsNl
  rw [List.takeWhile_cons_of_pos (by simp [isJsWs]),
    List.takeWhile_cons_of_pos (by simp [isJsWs])]
  rw [lastNlIdx, lastNlIdx, lastNlIdx_none _ hb]
  simp

theorem split_compose_list (y b : List Char) (hL : jsTrimL y = y) (hR : jsTrimR y = y)
    (hf : findSub nlFence ('\n' :: y) = none) (hb : '\n' ∉ b.takeWhile isJsWs) :
    splitFrontmatterL (composeWithFrontmatterL y b) = (some y, b) := by
  have hraw : composeWithFrontmatterL y b
      = '-' :: '-' :: '-' ::
        (('\n' :: y) ++ ('\n' :: '-' :: '-' :: '-' :: ('\n' :: '\n' :: b))) := by
    unfold composeWithFrontmatterL
    rw [hR]
    simp
  rw [hraw]
  unfold splitFrontmatterL
  rw [if_pos (by simp [begWith])]
  have hdrop3 : ('-' :: '-' :: '-' ::
      (('\n' :: y) ++ ('\n' :: '-' :: '-' :: '-' :: ('\n' :: '\n' :: b)))).drop 3
      = ('\n' :: y) ++ ('\n' :: '-' :: '-' :: '-' :: ('\n' :: '\n' :: b)) := rfl
  rw [hdrop3, findSub_fence ('\n' :: '\n' :: b) ('\n' :: y) hf]
  simp only [List.length_cons]
  have htake : (('\n' :: y) ++ ('\n' :: '-' :: '-' :: '-' :: ('\n' :: '\n' :: b))).take
      (y.length + 1 + 3 + 1 - 3) = '\n' :: (y ++ ['\n']) := by
    have hsplit2 : ('\n' :: y) ++ ('\n' :: '-' :: '-' :: '-' :: ('\n' :: '\n' :: b))
        = (('\n' :: (y ++ ['\n']))) ++ ('-' :: '-' :: '-' :: ('\n' :: '\n' :: b)) := by
      simp
    rw [hsplit2]
    have hlen2 : ('\n' :: (y ++ ['\n'])).length = y.length + 1 + 3 + 1 - 3 := by
      simp
    rw [← hlen2]
    exact List.take_left _ _
  have hdrop2 : ('-' :: '-' :: '-' ::
      (('\n' :: y) ++ ('\n' :: '-' :: '-' :: '-' :: ('\n' :: '\n' :: b)))).drop
      (y.length + 1 + 3 + 4) = '\n' :: '\n' :: b := by
    have hsplit3 : ('-' :: '-' :: '-' ::
        (('\n' :: y) ++ ('\n' :: '-' :: '-' :: '-' :: ('\n' :: '\n' :: b))))
        = ((['-', '-', '-', '\n'] ++ y ++ ['\n', '-', '-', '-']) ++ ('\n' :: '\n' :: b)) := by
      simp
    rw [hsplit3]
    have hlen3 : (['-', '-', '-', '\n'] ++ y ++ ['\n', '-', '-', '-']).length
        = y.length + 1 + 3 + 4 := by
      simp
    rw [← hlen3]
    exact List.drop_left _ _
  rw [htake, hdrop2, jsTrim_wrap y hL hR, stripLeadWsNl_two b hb]

theorem stringMk_toList (s : String) : String.mk s.toList = s := by
  cases s
  rfl

/-- Claim C2 as stated is false: the body is not always recovered.
The splitter's leading-blank-line cleanup swallows a newline that
belongs to the body, so composing the serialized mapping text "a: 1"
with the body "\nHello" and splitting again returns the body "Hello"
instead of "\nHello" (the metadata text itself is recovered exactly,
so the failure is in the body component for every mapping). -/
theorem claim_C2_counterexample :
    splitFrontmatter (composeWithFrontmatter "a: 1" "\nHello")
      ≠ (some "a: 1", "\nHello") := by decide

/-- Claim C2, amended: for every serialized metadata text that is
trimmed and contains no line starting with the fence (so the dump of
any mapping, whose parse then recovers the mapping by the serializer's
round-trip fidelity), and every body whose leading whitespace contains
no newline, split after compose returns exactly that metadata text and
that body.  Bodies beginning with a (possibly whitespace-preceded)
newline lose that leading blank-line prefix. -/
theorem claim_C2_amended (y b : String)
    (hL : jsTrimL y.toList = y.toList) (hR : jsTrimR y.toList = y.toList)
    (hf : findSub nlFence ('\n' :: y.toList) = none)
    (hb : '\n' ∉ b.toList.takeWhile isJsWs) :
    splitFrontmatter (composeWithFrontmatter y b) = (some y, b) := by
  unfold splitFrontmatter composeWithFrontmatter
  have h1 : (String.mk (composeWithFrontmatterL y.toList b.toList)).toList
      = composeWithFrontmatterL y.toList b.toList := rfl
  rw [h1, split_compose_list y.toList b.toList hL hR hf hb]
  simp [stringMk_toList]

/-- Witness for claim C2 (amended form), at the mapping text "a: 1"
and the body "Hello". -/
theorem claim_C2_witness :
    jsTrimL ("a: 1" : String).toList = ("a: 1" : String).toList
    ∧ splitFrontmatter (composeWithFrontmatter "a: 1" "Hello")
      = (some "a: 1", "Hello") := by
  refine ⟨by decide, ?_⟩
  exact claim_C2_amended "a: 1" "Hello" (by decide) (by decide) (by decide) (by decide)

/-! ## Lemmas about the reconciler -/

theorem getKey_setKey_self (m : Fm) (k : String) (v : FmVal) :
    getKey (setKey m k v) k = some v := by
  induction m with
  | nil => simp [setKey, getKey]
  | cons p ps ih =>
    by_cases hp : p.1 = k
    · simp [setKey, hp, getKey]
    · simp [setKey, hp, getKey, ih]

theorem getKey_setKey_ne (m : Fm) (k : String) (v : FmVal) (k' : String)
    (h : k' ≠ k) : getKey (setKey m k v) k' = getKey m k' := by
  have hkk : ¬(k = k') := fun he => h he.symm
  induction m with
  | nil => simp [setKey, getKey, hkk]
  | cons p ps ih =>
    by_cases hp : p.1 = k
    · have hp2 : ¬(p.1 = k') := by rw [hp]; exact hkk
      simp [setKey, getKey, hp, hp2, hkk]
    · by_cases hp3 : p.1 = k'
      · simp [setKey, getKey, hp, hp3, h]
      · simp [setKey, getKey, hp, hp3, ih]

theorem getKey_delKey_ne (m : Fm) (k k' : String) (h : k' ≠ k) :
    getKey (delKey m k) k' = getKey m k' := by
  induction m with
  | nil => rfl
  | cons p ps ih =>
    by_cases hp : p.1 = k
    · have hp2 : ¬(p.1 = k') := by rw [hp]; exact fun he => h he.symm
      have h1 : delKey (p :: ps) k = delKey ps k := by
        simp [delKey, List.filter_cons, hp]
      rw [h1, ih]
      simp only [getKey]
      rw [if_neg hp2]
    · have h1 : delKey (p :: ps) k = p :: delKey ps k := by
        simp [delKey, List.filter_cons, hp]
      rw [h1]
      simp only [getKey]
      by_cases hp3 : p.1 = k'
      · rw [if_pos hp3, if_pos hp3]
      · rw [if_neg hp3, if_neg hp3, ih]

theorem fst_mem_setKey (m : Fm) (k : String) (v : FmVal) :
    ∀ p ∈ setKey m k v, p.1 = k ∨ p ∈ m := by
  induction m with
  | nil =>
    intro p hp
    simp [setKey] at hp
    simp [hp]
  | cons q qs ih =>
    intro p hp
    by_cases hq : q.1 = k
    · simp only [setKey, if_pos hq] at hp
      rcases List.mem_cons.mp hp with rfl | hin
      · exact Or.inl rfl
      · exact Or.inr (List.mem_cons_of_mem _ hin)
    · simp only [setKey, if_neg hq] at hp
      rcases List.mem_cons.mp hp with rfl | hin
      · exact Or.inr (List.mem_cons_self _ _)
      · rcases ih p hin with h1 | h1
        · exact Or.inl h1
        · exact Or.inr (List.mem_cons_of_mem _ h1)

/-- The keys the Reconciler writes or strips; all other fields must
pass through untouched. -/
def reservedKey (k : String) : Bool :=
  k = "title" || k = "summary" || k = "tags" || k = "created" ||
  k = "fm_created" || k = "updated" || k = "last_modified" || k = "path"

theorem filter_setKey_reserved (k : String) (v : FmVal) (hk : reservedKey k = true) :
    ∀ m : Fm, (setKey m k v).filter (fun p => !(reservedKey p.1))
      = m.filter (fun p => !(reservedKey p.1)) := by
  intro m
  induction m with
  | nil => simp [setKey, hk]
  | cons q qs ih =>
    by_cases hq : q.1 = k
    · have hr : reservedKey q.1 = true := by rw [hq]; exact hk
      simp only [setKey, if_pos hq]
      rw [List.filter_cons, List.filter_cons]
      simp [hk, hr]
    · simp only [setKey, if_neg hq]
      rw [List.filter_cons, List.filter_cons, ih]

theorem filter_delKey_reserved (k : String) (hk : reservedKey k = true) :
    ∀ m : Fm, (delKey m k).filter (fun p => !(reservedKey p.1))
      = m.filter (fun p => !(reservedKey p.1)) := by
  intro m
  induction m with
  | nil => rfl
  | cons q qs ih =>
    by_cases hq : q.1 = k
    · have hr : reservedKey q.1 = true := by rw [hq]; exact hk
      have h1 : delKey (q :: qs) k = delKey qs k := by
        simp [delKey, List.filter_cons, hq]
      rw [h1, ih, List.filter_cons]
      simp [hr]
    · have h1 : delKey (q :: qs) k = q :: delKey qs k := by
        simp [delKey, List.filter_cons, hq]
      rw [h1, List.filter_cons, List.filter_cons, ih]

theorem getKey_mergeFM_pair (old : Fm) (tv sv : FmVal) (k : String)
    (h1 : k ≠ "title") (h2 : k ≠ "summary") (h3 : k ≠ "tags") :
    getKey (mergeFrontmatter (some old) [("title", tv), ("summary", sv)]) k
      = getKey old k := by
  unfold mergeFrontmatter
  simp only [Option.getD_some, List.foldl_cons, List.foldl_nil]
  rw [if_neg (by decide : ¬("title" : String) = "tags"),
    if_neg (by decide : ¬("summary" : String) = "tags")]
  split
  · rw [getKey_setKey_ne _ _ _ _ h3, getKey_setKey_ne _ _ _ _ h2,
      getKey_setKey_ne _ _ _ _ h1]
  · rw [getKey_setKey_ne _ _ _ _ h2, getKey_setKey_ne _ _ _ _ h1]

theorem getKey_mergeFM_title (old : Fm) (tv sv : FmVal) :
    getKey (mergeFrontmatter (some old) [("title", tv), ("summary", sv)]) "title"
      = some tv := by
  unfold mergeFrontmatter
  simp only [Option.getD_some, List.foldl_cons, List.foldl_nil]
  rw [if_neg (by decide : ¬("title" : String) = "tags"),
    if_neg (by decide : ¬("summary" : String) = "tags")]
  split
  · rw [getKey_setKey_ne _ _ _ _ (by decide), getKey_setKey_ne _ _ _ _ (by decide),
      getKey_setKey_self]
  · rw [getKey_setKey_ne _ _ _ _ (by decide), getKey_setKey_self]

theorem getKey_mergeFM_summary (old : Fm) (tv sv : FmVal) :
    getKey (mergeFrontmatter (some old) [("title", tv), ("summary", sv)]) "summary"
      = some sv := by
  unfold mergeFrontmatter
  simp only [Option.getD_some, List.foldl_cons, List.foldl_nil]
  rw [if_neg (by decide : ¬("title" : String) = "tags"),
    if_neg (by decide : ¬("summary" : String) = "tags")]
  split
  · rw [getKey_setKey_ne _ _ _ _ (by decide), getKey_setKey_self]
  · rw [getKey_setKey_self]

theorem filter_mergeFM_pair (old : Fm) (tv sv : FmVal) :
    (mergeFrontmatter (some old) [("title", tv), ("summary", sv)]).filter
      (fun p => !(reservedKey p.1)) = old.filter (fun p => !(reservedKey p.1)) := by
  unfold mergeFrontmatter
  simp only [Option.getD_some, List.foldl_cons, List.foldl_nil]
  rw [if_neg (by decide : ¬("title" : String) = "tags"),
    if_neg (by decide : ¬("summary" : String) = "tags")]
  split
  · rw [filter_setKey_reserved _ _ (by decide), filter_setKey_reserved _ _ (by decide),
      filter_setKey_reserved _ _ (by decide)]
  · rw [filter_setKey_reserved _ _ (by decide), filter_setKey_reserved _ _ (by decide)]

theorem reconcileCreated_absent (m3 : Fm) (ctime mtime : Option LocalDate)
    (now : LocalDate) (parseD : String → Option LocalDate)
    (h : getKey m3 "created" = none) :
    reconcileCreated m3 ctime mtime now parseD
      = setKey m3 "created"
          (FmVal.vstr (formatYYYYMMDDLocal (ctime.getD (mtime.getD now)))) := by
  unfold reconcileCreated
  rw [if_pos]
  simp [hasKey, h]

theorem reconcileCreated_falsy (m3 : Fm) (ctime mtime : Option LocalDate)
    (now : LocalDate) (parseD : String → Option LocalDate)
    (h : getKey m3 "created" = some (FmVal.vstr "")) :
    reconcileCreated m3 ctime mtime now parseD
      = setKey m3 "created"
          (FmVal.vstr (formatYYYYMMDDLocal (ctime.getD (mtime.getD now)))) := by
  unfold reconcileCreated
  rw [if_pos]
  simp [h, truthyOpt, truthy]

theorem reconcileCreated_parse (m3 : Fm) (ctime mtime : Option LocalDate)
    (now : LocalDate) (parseD : String → Option LocalDate) (s : String)
    (hs : getKey m3 "created" = some (FmVal.vstr s)) (hne : s ≠ "") :
    reconcileCreated m3 ctime mtime now parseD
      = (match parseD s with
         | some d => setKey m3 "created" (FmVal.vstr (formatYYYYMMDDLocal d))
         | none => m3) := by
  unfold reconcileCreated
  rw [if_neg, hs]
  simp [hasKey, hs, truthyOpt, truthy, hne]

theorem getKey_reconcileCreated_ne (m3 : Fm) (ctime mtime : Option LocalDate)
    (now : LocalDate) (parseD : String → Option LocalDate) (k : String)
    (hk : k ≠ "created") :
    getKey (reconcileCreated m3 ctime mtime now parseD) k = getKey m3 k := by
  unfold reconcileCreated
  split
  · rw [getKey_setKey_ne _ _ _ _ hk]
  · split
    · split
      · rw [getKey_setKey_ne _ _ _ _ hk]
      · rfl
    · rfl

theorem filter_reconcileCreated (m3 : Fm) (ctime mtime : Option LocalDate)
    (now : LocalDate) (parseD : String → Option LocalDate) :
    (reconcileCreated m3 ctime mtime now parseD).filter (fun p => !(reservedKey p.1))
      = m3.filter (fun p => !(reservedKey p.1)) := by
  unfold reconcileCreated
  split
  · rw [filter_setKey_reserved _ _ (by decide)]
  · split
    · split
      · rw [filter_setKey_reserved _ _ (by decide)]
      · rfl
    · rfl

theorem mem_reconcileCreated (m3 : Fm) (ctime mtime : Option LocalDate)
    (now : LocalDate) (parseD : String → Option LocalDate) :
    ∀ p ∈ reconcileCreated m3 ctime mtime now parseD, p.1 = "created" ∨ p ∈ m3 := by
  unfold reconcileCreated
  split
  · exact fst_mem_setKey _ _ _
  · split
    · split
      · exact fst_mem_setKey _ _ _
      · exact fun p hp => Or.inr hp
    · exact fun p hp => Or.inr hp

theorem getKey_reconcileBase_other (old : Fm) (objTitle objSummary : Option FmVal)
    (finalTags : List String) (k : String) (h1 : k ≠ "title") (h2 : k ≠ "summary")
    (h3 : k ≠ "tags") (h4 : k ≠ "updated") (h5 : k ≠ "last_modified")
    (h6 : k ≠ "path") :
    getKey (reconcileBase (some old) objTitle objSummary finalTags) k
      = getKey old k := by
  unfold reconcileBase
  rw [getKey_delKey_ne _ _ _ h6, getKey_delKey_ne _ _ _ h5, getKey_delKey_ne _ _ _ h4,
    getKey_setKey_ne _ _ _ _ h3, getKey_mergeFM_pair old _ _ k h1 h2 h3]

theorem mem_reconcileBase (old : Option Fm) (objTitle objSummary : Option FmVal)
    (finalTags : List String) :
    ∀ p ∈ reconcileBase old objTitle objSummary finalTags,
      p.1 ≠ "updated" ∧ p.1 ≠ "last_modified" ∧ p.1 ≠ "path" := by
  intro p hp
  unfold reconcileBase delKey at hp
  simp only [List.mem_filter, decide_eq_true_eq] at hp
  exact ⟨hp.1.1.2, hp.1.2, hp.2⟩

theorem reconcileCreated_parse_some (m3 : Fm) (ctime mtime : Option LocalDate)
    (now : LocalDate) (parseD : String → Option LocalDate) (s : String) (d : LocalDate)
    (hs : getKey m3 "created" = some (FmVal.vstr s)) (hne : s ≠ "")
    (hp : parseD s = some d) :
    reconcileCreated m3 ctime mtime now parseD
      = setKey m3 "created" (FmVal.vstr (formatYYYYMMDDLocal d)) := by
  rw [reconcileCreated_parse m3 ctime mtime now parseD s hs hne, hp]

theorem reconcileCreated_parse_none (m3 : Fm) (ctime mtime : Option LocalDate)
    (now : LocalDate) (parseD : String → Option LocalDate) (s : String)
    (hs : getKey m3 "created" = some (FmVal.vstr s)) (hne : s ≠ "")
    (hp : parseD s = none) :
    reconcileCreated m3 ctime mtime now parseD = m3 := by
  rw [reconcileCreated_parse m3 ctime mtime now parseD s hs hne, hp]

/-- Claim C6 as stated is false: when the generation result's title
field is absent, the reconciler does not keep the pre-existing title —
the `?? ''` default makes it overwrite the old value with the empty
string (no crash, but not "no title change"). -/
theorem claim_C6_counterexample :
    getKey [("title", FmVal.vstr "Old")] "title" = some (FmVal.vstr "Old")
    ∧ getKey (reconcile (some [("title", FmVal.vstr "Old")]) none none []
        none none ⟨2025, 8, 18⟩ (fun _ => none)) "title" = some (FmVal.vstr "") :=
  ⟨rfl, rfl⟩

/-- Claim C6, amended: when the generation result is a well-formed
mapping but its title (or summary) field is absent or null, the
reconciled metadata's title (or summary) is set to the empty string —
the old value is overwritten, and the absence degrades to a defaulted
write rather than a crash (the reconciler is a total function). -/
theorem claim_C6_amended (old : Fm) (objTitle objSummary : Option FmVal)
    (finalTags : List String) (ctime mtime : Option LocalDate) (now : LocalDate)
    (parseD : String → Option LocalDate) :
    getKey (reconcile (some old) none objSummary finalTags ctime mtime now parseD)
        "title" = some (FmVal.vstr "")
    ∧ getKey (reconcile (some old) objTitle none finalTags ctime mtime now parseD)
        "summary" = some (FmVal.vstr "") := by
  constructor
  · unfold reconcile
    rw [getKey_setKey_ne _ _ _ _ (by decide),
      getKey_reconcileCreated_ne _ _ _ _ _ _ (by decide)]
    unfold reconcileBase
    rw [getKey_delKey_ne _ _ _ (by decide), getKey_delKey_ne _ _ _ (by decide),
      getKey_delKey_ne _ _ _ (by decide), getKey_setKey_ne _ _ _ _ (by decide),
      getKey_mergeFM_title]
    rfl
  · unfold reconcile
    rw [getKey_setKey_ne _ _ _ _ (by decide),
      getKey_reconcileCreated_ne _ _ _ _ _ _ (by decide)]
    unfold reconcileBase
    rw [getKey_delKey_ne _ _ _ (by decide), getKey_delKey_ne _ _ _ (by decide),
      getKey_delKey_ne _ _ _ (by decide), getKey_setKey_ne _ _ _ _ (by decide),
      getKey_mergeFM_summary]
    rfl

/-- Claim C7: in reconciliation, an absent or empty `created` field is
set to the file-creation date (falling back to the modification date,
then the current time) in the local calendar-date format; a `created`
string that parses as a date is reformatted to the calendar date of
the same day; a string that does not parse (such as "not-a-date") is
left exactly as the original literal; and `fm_created` is
unconditionally set to the current local calendar date.  The JS `Date`
parse and the file timestamps are injected (`parseD`, `ctime`,
`mtime`, `now`), each timestamp given as its local calendar day. -/
theorem claim_C7_created (old : Fm) (objTitle objSummary : Option FmVal)
    (finalTags : List String) (ctime mtime : Option LocalDate) (now : LocalDate)
    (parseD : String → Option LocalDate) :
    (getKey old "created" = none →
      getKey (reconcile (some old) objTitle objSummary finalTags ctime mtime now parseD)
        "created" = some (FmVal.vstr (formatYYYYMMDDLocal (ctime.getD (mtime.getD now)))))
    ∧ (getKey old "created" = some (FmVal.vstr "") →
      getKey (reconcile (some old) objTitle objSummary finalTags ctime mtime now parseD)
        "created" = some (FmVal.vstr (formatYYYYMMDDLocal (ctime.getD (mtime.getD now)))))
    ∧ (∀ s d, getKey old "created" = some (FmVal.vstr s) → s ≠ "" →
        parseD s = some d →
        getKey (reconcile (some old) objTitle objSummary finalTags ctime mtime now parseD)
          "created" = some (FmVal.vstr (formatYYYYMMDDLocal d)))
    ∧ (∀ s, getKey old "created" = some (FmVal.vstr s) → s ≠ "" → parseD s = none →
        getKey (reconcile (some old) objTitle objSummary finalTags ctime mtime now parseD)
          "created" = some (FmVal.vstr s))
    ∧ getKey (reconcile (some old) objTitle objSummary finalTags ctime mtime now parseD)
        "fm_created" = some (FmVal.vstr (formatYYYYMMDDLocal now)) := by
  have hbase : getKey (reconcileBase (some old) objTitle objSummary finalTags) "created"
      = getKey old "created" :=
    getKey_reconcileBase_other old _ _ _ _ (by decide) (by decide) (by decide)
      (by decide) (by decide) (by decide)
  refine ⟨?_, ?_, ?_, ?_, ?_⟩
  · intro h
    unfold reconcile
    rw [getKey_setKey_ne _ _ _ _ (by decide),
      reconcileCreated_absent _ _ _ _ _ (hbase.trans h), getKey_setKey_self]
  · intro h
    unfold reconcile
    rw [getKey_setKey_ne _ _ _ _ (by decide),
      reconcileCreated_falsy _ _ _ _ _ (hbase.trans h), getKey_setKey_self]
  · intro s d hs hne hp
    unfold reconcile
    rw [getKey_setKey_ne _ _ _ _ (by decide),
      reconcileCreated_parse_some _ _ _ _ _ s d (hbase.trans hs) hne hp,
      getKey_setKey_self]
  · intro s hs hne hp
    unfold reconcile
    rw [getKey_setKey_ne _ _ _ _ (by decide),
      reconcileCreated_parse_none _ _ _ _ _ s (hbase.trans hs) hne hp]
    exact hbase.trans hs
  · unfold reconcile
    rw [getKey_setKey_self]

/-- Witness for claim C7: the old metadata carries the unparsable
created value "not-a-date" (Scenario 4), processed on 2025-08-18 for a
file created 2025-08-01. -/
theorem claim_C7_witness :
    getKey [("created", FmVal.vstr "not-a-date")] "created"
      = some (FmVal.vstr "not-a-date")
    ∧ getKey (reconcile (some [("created", FmVal.vstr "not-a-date")]) none none []
        (some ⟨2025, 8, 1⟩) none ⟨2025, 8, 18⟩ (fun _ => none)) "created"
      = some (FmVal.vstr "not-a-date")
    ∧ getKey (reconcile (some [("created", FmVal.vstr "not-a-date")]) none none []
        (some ⟨2025, 8, 1⟩) none ⟨2025, 8, 18⟩ (fun _ => none)) "fm_created"
      = some (FmVal.vstr "2025-08-18") := by
  refine ⟨rfl, ?_, ?_⟩
  · exact (claim_C7_created [("created", FmVal.vstr "not-a-date")] none none []
      (some ⟨2025, 8, 1⟩) none ⟨2025, 8, 18⟩ (fun _ => none)).2.2.2.1 "not-a-date" rfl
      (by decide) rfl
  · exact ((claim_C7_created [("created", FmVal.vstr "not-a-date")] none none []
      (some ⟨2025, 8, 1⟩) none ⟨2025, 8, 18⟩ (fun _ => none)).2.2.2.2).trans rfl

/-- Claim C9: reconciliation always removes the forbidden fields
`updated`, `last_modified` and `path`, and every field other than
`title`, `summary`, `tags`, `created`, `fm_created` and those three is
passed through from the old metadata unchanged, in its original
relative order (stated as equality of the mappings restricted to the
non-reserved fields). -/
theorem claim_C9_passthrough (old : Fm) (objTitle objSummary : Option FmVal)
    (finalTags : List String) (ctime mtime : Option LocalDate) (now : LocalDate)
    (parseD : String → Option LocalDate) :
    (reconcile (some old) objTitle objSummary finalTags ctime mtime now parseD).filter
        (fun p => !(reservedKey p.1))
      = old.filter (fun p => !(reservedKey p.1))
    ∧ ∀ p ∈ reconcile (some old) objTitle objSummary finalTags ctime mtime now parseD,
        p.1 ≠ "updated" ∧ p.1 ≠ "last_modified" ∧ p.1 ≠ "path" := by
  constructor
  · unfold reconcile
    rw [filter_setKey_reserved _ _ (by decide), filter_reconcileCreated]
    unfold reconcileBase
    rw [filter_delKey_reserved _ (by decide), filter_delKey_reserved _ (by decide),
      filter_delKey_reserved _ (by decide), filter_setKey_reserved _ _ (by decide),
      filter_mergeFM_pair]
  · intro p hp
    unfold reconcile at hp
    rcases fst_mem_setKey _ _ _ p hp with h1 | h1
    · rw [h1]
      exact (by decide)
    · rcases mem_reconcileCreated _ _ _ _ _ p h1 with h2 | h2
      · rw [h2]
        exact (by decide)
      · exact mem_reconcileBase _ _ _ _ p h2

/-- Witness for claim C1 at Scenario-2-like inputs: the merge equals
the first-seen recursion, and the kept form "History" is the first
occurrence of its dedup key in the precedence stream. -/
theorem claim_C1_witness :
    mergeTags ["History"] ["note"] [("en", ["history notes"])]
      = mergeFirstSeen [] (canonStream ["History"] ["note"] [("en", ["history notes"])])
    ∧ (canonStream ["History"] ["note"] [("en", ["history notes"])]).find?
        (fun d => tagKey d == tagKey "History") = some "History" := by
  refine ⟨(claim_C1_merge_precedence ["History"] ["note"] [("en", ["history notes"])]).1, ?_⟩
  exact (claim_C1_merge_precedence ["History"] ["note"] [("en", ["history notes"])]).2
    "History" (by decide)

/-- Witness for claim C5 (amended form) at a body with a repeated
inline tag. -/
theorem claim_C5_witness :
    (extractInlineTagsAndStrip "#a #b #a").1.Nodup
    ∧ ("a" : String) ∈ (extractInlineTagsAndStrip "#a #b #a").1
    ∧ ("a" : String) ≠ "" := by
  refine ⟨(claim_C5_amended "#a #b #a").1, by decide, ?_⟩
  exact (claim_C5_amended "#a #b #a").2.1 "a" (by decide)

/-- Witness for claim C9: an old mapping with a forbidden `path` field
and an unrelated `keep` field. -/
theorem claim_C9_witness :
    (reconcile (some [("path", FmVal.vstr "p"), ("keep", FmVal.vstr "v")]) none none []
        none none ⟨2025, 8, 18⟩ (fun _ => none)).filter (fun p => !(reservedKey p.1))
      = [("keep", FmVal.vstr "v")]
    ∧ (("keep", FmVal.vstr "v") : String × FmVal).1 ≠ "path" := by
  constructor
  · exact ((claim_C9_passthrough [("path", FmVal.vstr "p"), ("keep", FmVal.vstr "v")]
      none none [] none none ⟨2025, 8, 18⟩ (fun _ => none)).1).trans rfl
  · have hres : reconcile (some [("path", FmVal.vstr "p"), ("keep", FmVal.vstr "v")])
        none none [] none none ⟨2025, 8, 18⟩ (fun _ => none)
        = [("keep", FmVal.vstr "v"), ("title", FmVal.vstr ""), ("summary", FmVal.vstr ""),
           ("tags", FmVal.varr []), ("created", FmVal.vstr "2025-08-18"),
           ("fm_created", FmVal.vstr "2025-08-18")] := rfl
    have hmem : (("keep", FmVal.vstr "v") : String × FmVal)
        ∈ reconcile (some [("path", FmVal.vstr "p"), ("keep", FmVal.vstr "v")]) none none []
          none none ⟨2025, 8, 18⟩ (fun _ => none) := by
      rw [hres]
      exact List.mem_cons_self _ _
    exact ((claim_C9_passthrough [("path", FmVal.vstr "p"), ("keep", FmVal.vstr "v")]
      none none [] none none ⟨2025, 8, 18⟩ (fun _ => none)).2 _ hmem).2.2

/-- Witness for claim C10 at Scenario-2 inputs. -/
theorem claim_C10_witness :
    ("History" : String) ∈ mergeTags ["History"] ["history-notes"] [("en", ["History"])]
    ∧ ("History" : String) ≠ ""
    ∧ List.Pairwise (fun a b => tagKey a ≠ tagKey b)
        (mergeTags ["History"] ["history-notes"] [("en", ["History"])]) := by
  refine ⟨by decide, ?_, ?_⟩
  · exact (claim_C10_merge_wellformed ["History"] ["history-notes"] [("en", ["History"])]).1
      "History" (by decide)
  · exact (claim_C10_merge_wellformed ["History"] ["history-notes"] [("en", ["History"])]).2
